import Mathlib

/-!
Verification of the wikiscraper extraction-and-crawl engine.

Shallow embedding of the core logic of `wiki_scraper.py` / `wikiscraper.py`:
string replacement (Python `str.replace` replaces every non-overlapping
occurrence, left to right), URL derivation, internal-link extraction,
summary extraction, the table selection and persistence pipeline of
`get_table`, the word-frequency store merge of `count_words`, and the
breadth-first crawl loop of `_handle_auto_count`.
-/

namespace WikiScraper

/-- Python `str.replace(pat, rep)` on character lists, fuel-indexed so that
the kernel can evaluate it.  Scans left to right; at each position, if `pat`
is a prefix there, emits `rep` and resumes after the occurrence, else keeps
the character.  (All call sites use a non-empty `pat`; the `isEmpty` guard
only rules the degenerate pattern out of the replacing branch.) -/
def replaceAllAux (pat rep : List Char) : Nat → List Char → List Char
  | 0, l => l
  | _ + 1, [] => []
  | fuel + 1, c :: rest =>
    if pat.isPrefixOf (c :: rest) && !pat.isEmpty then
      rep ++ replaceAllAux pat rep fuel (List.drop (pat.length - 1) rest)
    else
      c :: replaceAllAux pat rep fuel rest

/-- Python `s.replace(pat, rep)` as a function on `String`. -/
def replaceAll (s pat rep : String) : String :=
  String.mk (replaceAllAux pat.toList rep.toList s.toList.length s.toList)

/-- Source `WikiScraper._get_url`: f-string
`f"{self.base_url}/wiki/{self.phrase.replace(' ', '_')}"`. -/
def get_url (base phrase : String) : String :=
  base ++ "/wiki/" ++ replaceAll phrase " " "_"

/-- Spec-side page-address derivation, following the spec's words:
the base, then `/wiki/`, then the phrase with every space character
replaced by an underscore. -/
def pageAddressSpec (base phrase : String) : String :=
  base ++ "/wiki/" ++ String.mk (phrase.toList.map fun c => if c = ' ' then '_' else c)

/-- Python `s.startswith(pre)`. -/
def startsWith (s pre : String) : Bool :=
  pre.toList.isPrefixOf s.toList

/-- The phrase extracted from one anchor target in
`WikiScraper.get_internal_links`:
`href.replace("/wiki/", "").replace("_", " ")`. -/
def extract_phrase (href : String) : String :=
  replaceAll (replaceAll href "/wiki/" "") "_" " "

/-- Source `WikiScraper.get_internal_links`, given the `href` targets of the
anchor tags of the content region in document order: the loop appends
`extract_phrase href` for each target that starts with `/wiki/`. -/
def get_internal_links (hrefs : List String) : List String :=
  hrefs.foldl
    (fun links href =>
      if startsWith href "/wiki/" then links ++ [extract_phrase href] else links)
    []

/-- Spec-side internal-link phrase: every occurrence of `/wiki/` removed,
then every underscore character replaced by a space. -/
def internalPhraseSpec (href : String) : String :=
  String.mk ((replaceAll href "/wiki/" "").toList.map fun c => if c = '_' then ' ' else c)

/-- Python `str.strip()`: drop leading and trailing whitespace. -/
def pyStrip (s : String) : String :=
  String.mk (((s.toList.dropWhile Char.isWhitespace).reverse.dropWhile
    Char.isWhitespace).reverse)

/-- Source `WikiScraper.get_summary`, given the texts of the `<p>` elements of the
content region in document order: returns the stripped text of the first
paragraph whose stripped text is non-empty, else the sentinel. -/
def get_summary : List String → String
  | [] => "No summary available."
  | p :: rest => if pyStrip p ≠ "" then pyStrip p else get_summary rest

/-- Association-list model of a Python dict from words to counts: the
value bound to a key is the one of its first binding. -/
def lookup (d : List (String × Nat)) (k : String) : Option Nat :=
  (d.find? (fun e => e.1 == k)).map (fun e => e.2)

/-- One iteration of the merge loop of `count_words`:
`global_counts[word] += count` when the word is present,
`global_counts[word] = count` (a new binding at the end) when absent. -/
def updateKey : List (String × Nat) → String → Nat → List (String × Nat)
  | [], k, c => [(k, c)]
  | (k', c') :: rest, k, c =>
    if k' == k then (k', c' + c) :: rest else (k', c') :: updateKey rest k c

/-- The merge loop of `count_words`: fold the delta's bindings into the
persisted map, key-wise. -/
def mergeCounts (store delta : List (String × Nat)) : List (String × Nat) :=
  delta.foldl (fun acc kc => updateKey acc kc.1 kc.2) store

/-- The total count a delta contributes to one key. -/
def sumCounts (delta : List (String × Nat)) (q : String) : Nat :=
  ((delta.filter (fun e => e.1 == q)).map Prod.snd).sum

/-- Outcome of reading the persisted `word-counts.json` file in
`count_words`: the file may be absent, present but undecodable, or
decoded to a map. -/
inductive StoreRead
  | absent
  | corrupt
  | ok (counts : List (String × Nat))

/-- The read-merge step of `count_words`: an absent file starts from the
empty map; a decode failure prints a warning (second component `true`)
and starts from the empty map; a decoded map is merged into key-wise. -/
def count_words_merge (r : StoreRead) (delta : List (String × Nat)) :
    List (String × Nat) × Bool :=
  match r with
  | .absent => (mergeCounts [] delta, false)
  | .corrupt => (mergeCounts [] delta, true)
  | .ok counts => (mergeCounts counts delta, false)

/-- The `(result, stats)` pair returned by `get_table`: either the
extracted table together with its value-frequency tally, or an error
message (Python returns the message in place of the table and `None` in
place of the tally). -/
inductive GetTableResult (δ φ : Type) where
  | ok (df : δ) (freq : φ)
  | err (msg : String)
deriving DecidableEq

/-- The 1-based table selection of `get_table`: error when
`table_number > len(tables) or table_number < 1`, else
`tables[table_number - 1]`. -/
def getTableAt {α : Type} (tables : List α) (n : Int) : Option α :=
  if n > (tables.length : Int) ∨ n < 1 then none
  else tables[(n - 1).toNat]?

/-- Source `WikiScraper.get_table` after a successful fetch, over the external
collaborators as parameters: `content` is the located content region's
table elements in document order (or `none` when no content region was
found), `parse` is `pd.read_html` on one table element (an exception, or
`None` when it returns no frame, or a parsed frame), `countVals` is the
value tally `_count_table_values`, and `writeResult` is the outcome of
`df.to_csv`.  The second component records the path of the CSV file
whose write was attempted, `none` when `to_csv` was never reached.
A raised exception anywhere in the `try` block — including one raised by
`to_csv` — is caught and returned as
`"Error processing table: <e>"`. -/
def get_table {τ δ φ : Type} (content : Option (List τ)) (tableNumber : Int)
    (parse : τ → Except String (Option δ)) (countVals : δ → φ)
    (phrase : String) (writeResult : Except String Unit) :
    GetTableResult δ φ × Option String :=
  match content with
  | none => (.err "Could not find content on the page.", none)
  | some tables =>
    if tableNumber > (tables.length : Int) ∨ tableNumber < 1 then
      (.err ("Table number " ++ toString tableNumber ++ " does not exist on the page."),
        none)
    else
      match tables[(tableNumber - 1).toNat]? with
      | none => (.err "Could not extract table", none)
      | some t =>
        match parse t with
        | .error e => (.err ("Error processing table: " ++ e), none)
        | .ok none => (.err "Could not extract table", none)
        | .ok (some df) =>
          match writeResult with
          | .error e => (.err ("Error processing table: " ++ e), some (phrase ++ ".csv"))
          | .ok _ => (.ok df (countVals df), some (phrase ++ ".csv"))

/-- State of the breadth-first crawl loop of `_handle_auto_count`: the
FIFO queue of `(phrase, depth)` pairs and the visited set (a Python
`set`, modelled as a list queried by membership), together with two ghost
histories used only to state the invariants: every pair ever appended to
the queue, and every pair ever dequeued and processed (that is, fetched:
`count_words` runs on every dequeued phrase). -/
structure CrawlState where
  queue : List (String × Nat)
  visited : List String
  processed : List (String × Nat)
  history : List (String × Nat)
deriving DecidableEq

/-- The inner `for link in links:` loop: each link not already in the
visited set is marked visited and enqueued at `current_depth + 1`; a
link already visited is skipped.  Returns the updated visited set,
queue, and enqueue history. -/
def addLinks (d : Nat) :
    List String → List String → List (String × Nat) → List (String × Nat) →
      List String × List (String × Nat) × List (String × Nat)
  | [], v, q, h => (v, q, h)
  | link :: rest, v, q, h =>
    if link ∈ v then addLinks d rest v q h
    else addLinks d rest (link :: v) (q ++ [(link, d + 1)]) ((link, d + 1) :: h)

/-- One iteration of the `while queue:` loop.  `world` is the external
fetch collaborator: it maps a phrase to whether `count_words` succeeded
for it and to the page's internal links in document order.  The front
pair is dequeued and processed; links are expanded only when the word
count succeeded and `current_depth < max_depth`. -/
def crawlStep (world : String → Bool × List String) (maxDepth : Nat)
    (s : CrawlState) : CrawlState :=
  match s.queue with
  | [] => s
  | (p, d) :: rest =>
    if (world p).1 = true ∧ d < maxDepth then
      let r := addLinks d (world p).2 s.visited rest s.history
      ⟨r.2.1, r.1, s.processed ++ [(p, d)], r.2.2⟩
    else
      ⟨rest, s.visited, s.processed ++ [(p, d)], s.history⟩

/-- Crawl initialisation: `queue = deque([(start_phrase, 0)])` and
`visited = {start_phrase}`. -/
def crawlInit (start : String) : CrawlState :=
  ⟨[(start, 0)], [start], [], [(start, 0)]⟩

/-- The crawl state after `n` iterations of the loop. -/
def crawlRun (world : String → Bool × List String) (maxDepth : Nat)
    (start : String) : Nat → CrawlState
  | 0 => crawlInit start
  | n + 1 => crawlStep world maxDepth (crawlRun world maxDepth start n)

/-- The crawl invariant: the visited set is exactly the set of phrases
ever enqueued; no phrase is enqueued twice; every enqueued pair respects
the depth bound; and every queued or processed pair was enqueued. -/
def CrawlInv (maxDepth : Nat) (s : CrawlState) : Prop :=
  (∀ p, p ∈ s.visited ↔ p ∈ s.history.map Prod.fst) ∧
  (s.history.map Prod.fst).Nodup ∧
  (∀ pd ∈ s.history, pd.2 ≤ maxDepth) ∧
  (∀ pd ∈ s.queue, pd ∈ s.history) ∧
  (∀ pd ∈ s.processed, pd ∈ s.history)

/-- A sample link graph for concrete runs: page `A` links to `B` and back
to `A`; every other page has no links; every fetch succeeds. -/
def demoWorld : String → Bool × List String :=
  fun p => if p = "A" then (true, ["B", "A"]) else (true, [])

/-- Replacing a single-character pattern by a single character is the
character map, for any sufficient fuel. -/
theorem replaceAllAux_single (a b : Char) :
    ∀ (fuel : Nat) (l : List Char), l.length ≤ fuel →
      replaceAllAux [a] [b] fuel l = l.map (fun c => if c = a then b else c) := by
  intro fuel
  induction fuel with
  | zero =>
    intro l hl
    simp only [Nat.le_zero, List.length_eq_zero] at hl
    subst hl
    rfl
  | succ n ih =>
    intro l hl
    cases l with
    | nil => rfl
    | cons c rest =>
      simp only [List.length_cons, Nat.succ_le_succ_iff] at hl
      by_cases hca : a = c
      · subst hca
        simp [replaceAllAux, List.isPrefixOf, ih rest hl]
      · have hba : (a == c) = false := by
          simp [hca]
        simp [replaceAllAux, List.isPrefixOf, hba, ih rest hl, Ne.symm hca]

/-- Replacing spaces by underscores is the character map. -/
theorem replaceAll_space_underscore (s : String) :
    replaceAll s " " "_" = String.mk (s.toList.map fun c => if c = ' ' then '_' else c) := by
  unfold replaceAll
  have h1 : (" " : String).toList = [' '] := by decide
  have h2 : ("_" : String).toList = ['_'] := by decide
  rw [h1, h2, replaceAllAux_single ' ' '_' s.toList.length s.toList (le_refl _)]

/-- Replacing underscores by spaces is the character map. -/
theorem replaceAll_underscore_space (s : String) :
    replaceAll s "_" " " = String.mk (s.toList.map fun c => if c = '_' then ' ' else c) := by
  unfold replaceAll
  have h1 : ("_" : String).toList = ['_'] := by decide
  have h2 : (" " : String).toList = [' '] := by decide
  rw [h1, h2, replaceAllAux_single '_' ' ' s.toList.length s.toList (le_refl _)]

/-- C9: the derived page address is the base, then `/wiki/`, then the
phrase with every space replaced by an underscore; for phrase
`"Team Rocket"` and base `"https://example.org"` it is exactly
`"https://example.org/wiki/Team_Rocket"`. -/
theorem c9_address_derivation :
    (∀ base phrase, get_url base phrase = pageAddressSpec base phrase) ∧
    get_url "https://example.org" "Team Rocket" = "https://example.org/wiki/Team_Rocket" := by
  constructor
  · intro base phrase
    unfold get_url pageAddressSpec
    rw [replaceAll_space_underscore]
  · decide

/-- The link-collection loop of `get_internal_links`, started from any
accumulator, appends exactly the phrases of the targets that start with
`/wiki/`, in document order. -/
theorem get_internal_links_foldl (hrefs : List String) (acc : List String) :
    hrefs.foldl
        (fun links href =>
          if startsWith href "/wiki/" then links ++ [extract_phrase href] else links)
        acc
      = acc ++ (hrefs.filter (fun h => startsWith h "/wiki/")).map extract_phrase := by
  induction hrefs generalizing acc with
  | nil => simp
  | cons h t ih =>
    cases hs : startsWith h "/wiki/" with
    | true => simp [List.foldl_cons, hs, ih, List.filter_cons]
    | false => simp [List.foldl_cons, hs, ih, List.filter_cons]

/-- The code's per-anchor phrase (Python replace-all) agrees with the
spec-side description of the underscore step. -/
theorem extract_phrase_eq_spec (href : String) :
    extract_phrase href = internalPhraseSpec href := by
  unfold extract_phrase internalPhraseSpec
  rw [replaceAll_underscore_space]

/-- C8 counterexample: for the anchor target `/wiki/Ash/wiki/Ketchum`,
stripping the `/wiki/` prefix would give `Ash/wiki/Ketchum`, but the code
removes every occurrence of `/wiki/` and extracts `AshKetchum`. -/
theorem c8_counterexample :
    get_internal_links ["/wiki/Ash/wiki/Ketchum"] = ["AshKetchum"] ∧
    get_internal_links ["/wiki/Ash/wiki/Ketchum"] ≠ ["Ash/wiki/Ketchum"] := by
  decide

/-- C8 (amended): an anchor is internal iff its target starts with
`/wiki/`; the extracted phrase is the target with every occurrence of
`/wiki/` removed and every underscore replaced by a space (equal to
prefix-stripping whenever `/wiki/` occurs only as the leading prefix);
the scenario anchors extract exactly `Pikachu`, `File:Image.png`,
`Ash Ketchum`, and the external link is excluded. -/
theorem c8_internal_links :
    (∀ hrefs, get_internal_links hrefs
        = (hrefs.filter (fun h => startsWith h "/wiki/")).map internalPhraseSpec) ∧
    get_internal_links
        ["/wiki/Pikachu", "https://google.com", "/wiki/File:Image.png", "/wiki/Ash_Ketchum"]
      = ["Pikachu", "File:Image.png", "Ash Ketchum"] := by
  constructor
  · intro hrefs
    unfold get_internal_links
    rw [get_internal_links_foldl]
    simp only [List.nil_append]
    exact List.map_congr_left (fun a _ => extract_phrase_eq_spec a)
  · decide

/-- C7: `get_summary` returns the stripped text of the first paragraph
whose stripped text is non-empty; if no paragraph has non-empty stripped
text it returns the sentinel `"No summary available."`; and on the
scenario paragraphs `["", "Team Rocket is a villainous team."]` it
returns exactly `"Team Rocket is a villainous team."`. -/
theorem c7_summary :
    (∀ ps p, ps.find? (fun q => pyStrip q != "") = some p → get_summary ps = pyStrip p) ∧
    (∀ ps, ps.find? (fun q => pyStrip q != "") = none →
      get_summary ps = "No summary available.") ∧
    get_summary ["", "Team Rocket is a villainous team."]
      = "Team Rocket is a villainous team." := by
  refine ⟨?_, ?_, by decide⟩
  · intro ps
    induction ps with
    | nil =>
      intro p h
      simp [List.find?] at h
    | cons q rest ih =>
      intro p h
      rw [List.find?_cons] at h
      cases hq : (pyStrip q != "") with
      | true =>
        rw [hq] at h
        simp only [] at h
        cases h
        simp only [get_summary]
        rw [if_pos (by simpa using hq)]
      | false =>
        rw [hq] at h
        simp only [] at h
        have hq' : ¬ (pyStrip q ≠ "") := by simpa using hq
        simp only [get_summary]
        rw [if_neg hq']
        exact ih p h
  · intro ps
    induction ps with
    | nil =>
      intro _
      rfl
    | cons q rest ih =>
      intro h
      rw [List.find?_cons] at h
      cases hq : (pyStrip q != "") with
      | true =>
        rw [hq] at h
        simp at h
      | false =>
        rw [hq] at h
        simp only [] at h
        have hq' : ¬ (pyStrip q ≠ "") := by simpa using hq
        simp only [get_summary]
        rw [if_neg hq']
        exact ih h

/-- Witness for C7: the hypothesis-bearing conjuncts hold at concrete
paragraph lists. -/
theorem c7_summary_witness :
    get_summary ["", "Team Rocket is a villainous team."]
        = pyStrip "Team Rocket is a villainous team." ∧
    get_summary [" ", ""] = "No summary available." :=
  ⟨c7_summary.1 _ _ (by decide), c7_summary.2.1 _ (by decide)⟩

theorem lookup_cons (a : String) (b : Nat) (rest : List (String × Nat)) (q : String) :
    lookup ((a, b) :: rest) q = if a == q then some b else lookup rest q := by
  unfold lookup
  rw [List.find?_cons]
  cases hab : (a == q) <;> simp [hab]

theorem getD_updateKey (d : List (String × Nat)) (k : String) (c : Nat) (q : String) :
    (lookup (updateKey d k c) q).getD 0
      = (lookup d q).getD 0 + (if q = k then c else 0) := by
  induction d with
  | nil =>
    by_cases hqk : q = k
    · subst hqk
      simp [updateKey, lookup_cons, lookup]
    · simp [updateKey, lookup_cons, lookup, Ne.symm hqk, hqk]
  | cons e rest ih =>
    obtain ⟨a, b⟩ := e
    by_cases hak : a = k
    · subst hak
      by_cases hqa : q = a
      · subst hqa
        simp [updateKey, lookup_cons]
      · simp [updateKey, lookup_cons, Ne.symm hqa, hqa]
    · by_cases hqa : a = q
      · subst hqa
        have hqk : ¬ (a = k) := hak
        simp [updateKey, lookup_cons, hak, hqk]
      · simp [updateKey, lookup_cons, hak, hqa, ih]

theorem isSome_updateKey (d : List (String × Nat)) (k : String) (c : Nat) (q : String) :
    (lookup (updateKey d k c) q).isSome = true
      ↔ ((lookup d q).isSome = true ∨ q = k) := by
  induction d with
  | nil =>
    by_cases hqk : q = k
    · subst hqk
      simp [updateKey, lookup_cons, lookup]
    · simp [updateKey, lookup_cons, lookup, Ne.symm hqk, hqk]
  | cons e rest ih =>
    obtain ⟨a, b⟩ := e
    by_cases hak : a = k
    · subst hak
      by_cases hqa : a = q
      · subst hqa
        simp [updateKey, lookup_cons]
      · simp [updateKey, lookup_cons, hqa, Ne.symm hqa]
    · by_cases hqa : a = q
      · subst hqa
        simp [updateKey, lookup_cons, hak]
      · simp [updateKey, lookup_cons, hak, hqa, ih]

theorem sumCounts_cons (k : String) (c : Nat) (rest : List (String × Nat)) (q : String) :
    sumCounts ((k, c) :: rest) q = (if q = k then c else 0) + sumCounts rest q := by
  by_cases hqk : q = k
  · subst hqk
    simp [sumCounts, List.filter_cons]
  · simp [sumCounts, List.filter_cons, Ne.symm hqk, hqk]

theorem getD_mergeCounts (delta store : List (String × Nat)) (q : String) :
    (lookup (mergeCounts store delta) q).getD 0
      = (lookup store q).getD 0 + sumCounts delta q := by
  induction delta generalizing store with
  | nil => simp [mergeCounts, sumCounts]
  | cons e rest ih =>
    obtain ⟨k, c⟩ := e
    have hfold : mergeCounts store ((k, c) :: rest) = mergeCounts (updateKey store k c) rest := by
      simp [mergeCounts]
    rw [hfold, ih, getD_updateKey, sumCounts_cons]
    omega

theorem isSome_mergeCounts (delta store : List (String × Nat)) (q : String) :
    (lookup (mergeCounts store delta) q).isSome = true
      ↔ ((lookup store q).isSome = true ∨ q ∈ delta.map Prod.fst) := by
  induction delta generalizing store with
  | nil => simp [mergeCounts]
  | cons e rest ih =>
    obtain ⟨k, c⟩ := e
    have hfold : mergeCounts store ((k, c) :: rest) = mergeCounts (updateKey store k c) rest := by
      simp [mergeCounts]
    rw [hfold, ih, isSome_updateKey]
    simp [or_assoc, or_comm, or_left_comm]

theorem option_nat_ext (o₁ o₂ : Option Nat)
    (hs : o₁.isSome = true ↔ o₂.isSome = true) (hv : o₁.getD 0 = o₂.getD 0) :
    o₁ = o₂ := by
  cases o₁ <;> cases o₂ <;> simp_all

/-- C3: the frequency-store merge is a commutative key-wise sum: merging
delta `A` into the persisted map `S` and then `B` binds every key to the
same count as merging `B` and then `A`. -/
theorem c3_merge_commutative (S A B : List (String × Nat)) (q : String) :
    lookup (mergeCounts (mergeCounts S A) B) q
      = lookup (mergeCounts (mergeCounts S B) A) q := by
  apply option_nat_ext
  · rw [isSome_mergeCounts, isSome_mergeCounts, isSome_mergeCounts, isSome_mergeCounts]
    tauto
  · rw [getD_mergeCounts, getD_mergeCounts, getD_mergeCounts, getD_mergeCounts]
    omega

theorem lookup_append_of_none (s t : List (String × Nat)) (q : String)
    (h : lookup s q = none) : lookup (s ++ t) q = lookup t q := by
  induction s with
  | nil => simp
  | cons e rest ih =>
    obtain ⟨a, b⟩ := e
    rw [List.cons_append, lookup_cons]
    rw [lookup_cons] at h
    cases hab : (a == q) with
    | true =>
      rw [hab] at h
      simp at h
    | false =>
      rw [hab] at h
      simp only [Bool.false_eq_true, if_false] at h ⊢
      exact ih h

theorem updateKey_of_none (s : List (String × Nat)) (k : String) (c : Nat)
    (h : lookup s k = none) : updateKey s k c = s ++ [(k, c)] := by
  induction s with
  | nil => rfl
  | cons e rest ih =>
    obtain ⟨a, b⟩ := e
    rw [lookup_cons] at h
    cases hab : (a == k) with
    | true =>
      rw [hab] at h
      simp at h
    | false =>
      rw [hab] at h
      simp only [Bool.false_eq_true, if_false] at h
      simp [updateKey, hab, ih h]

theorem mergeCounts_all_new (delta : List (String × Nat)) :
    ∀ s, (delta.map Prod.fst).Nodup → (∀ e ∈ delta, lookup s e.1 = none) →
      mergeCounts s delta = s ++ delta := by
  induction delta with
  | nil =>
    intro s _ _
    simp [mergeCounts]
  | cons e rest ih =>
    intro s hnd hnone
    obtain ⟨k, c⟩ := e
    have hk : lookup s k = none := hnone (k, c) (by simp)
    have hfold : mergeCounts s ((k, c) :: rest) = mergeCounts (updateKey s k c) rest := by
      simp [mergeCounts]
    rw [hfold, updateKey_of_none s k c hk]
    rw [List.map_cons, List.nodup_cons] at hnd
    have hrest : ∀ e ∈ rest, lookup (s ++ [(k, c)]) e.1 = none := by
      intro e he
      rw [lookup_append_of_none _ _ _ (hnone e (by simp [he])), lookup_cons]
      have hek : ¬ k = e.1 := by
        intro hkk
        exact hnd.1 (hkk ▸ (List.mem_map.mpr ⟨e, he, rfl⟩))
      simp [hek, lookup]
    rw [ih (s ++ [(k, c)]) hnd.2 hrest, List.append_assoc]
    rfl

/-- C4: when the persisted frequency file is present but undecodable, the
merge prints a warning and proceeds from the empty map, and the result is
exactly the delta's counts (for any delta with distinct keys). -/
theorem c4_corrupt_store (delta : List (String × Nat))
    (hnd : (delta.map Prod.fst).Nodup) :
    count_words_merge StoreRead.corrupt delta = (delta, true) := by
  unfold count_words_merge
  rw [mergeCounts_all_new delta [] hnd (by intro e _; rfl)]
  rfl

/-- Witness for C4: merging the delta with the single binding `a ↦ 1`
into a corrupt store yields exactly that map, with the warning. -/
theorem c4_corrupt_store_witness :
    count_words_merge StoreRead.corrupt [("a", 1)] = ([("a", 1)], true) :=
  c4_corrupt_store [("a", 1)] (by decide)

/-- C5: table selection is 1-based over the region's table elements:
requesting table 1 of a non-empty table list returns the first table in
document order, and any index strictly below 1 or strictly above the
number of tables — in particular `N + 1` — is rejected. -/
theorem c5_table_index {α : Type} :
    (∀ (t : α) (rest : List α), getTableAt (t :: rest) 1 = some t) ∧
    (∀ (tables : List α) (n : Int),
      n < 1 ∨ n > (tables.length : Int) → getTableAt tables n = none) ∧
    (∀ tables : List α, getTableAt tables ((tables.length : Int) + 1) = none) := by
  refine ⟨?_, ?_, ?_⟩
  · intro t rest
    unfold getTableAt
    have hneg : ¬ ((1 : Int) > (((t :: rest).length : Nat) : Int) ∨ (1 : Int) < 1) := by
      simp only [List.length_cons]
      omega
    rw [if_neg hneg]
    simp
  · intro tables n h
    unfold getTableAt
    rw [if_pos (by tauto)]
  · intro tables
    unfold getTableAt
    rw [if_pos (Or.inl (by omega))]

/-- Witness for C5: on a two-table region, table 1 is the first table and
tables 0 and 3 are rejected. -/
theorem c5_table_index_witness :
    getTableAt ["t1", "t2"] 1 = some "t1" ∧
    getTableAt ["t1", "t2"] (0 : Int) = none ∧
    getTableAt ["t1", "t2"] (3 : Int) = none :=
  ⟨c5_table_index.1 "t1" ["t2"],
   c5_table_index.2.1 ["t1", "t2"] 0 (Or.inl (by decide)),
   c5_table_index.2.1 ["t1", "t2"] 3 (Or.inr (by decide))⟩

/-- C6 counterexample: with a one-table region, a parse that succeeds and
a CSV write that fails, `get_table` returns the error message in place of
the extracted table — the write failure does invalidate the result. -/
theorem c6_counterexample :
    get_table (some [()]) 1 (fun _ => Except.ok (some ())) (fun _ => ()) "Pikachu"
        (Except.error "disk full")
      = (GetTableResult.err "Error processing table: disk full", some "Pikachu.csv") := by
  rfl

/-- C6 (amended): the CSV write of `get_table` is not best-effort — the
`to_csv` call sits inside the same `try` as the extraction, so when the
write raises, the caught exception is returned as
`"Error processing table: <e>"` in place of the extracted table, and the
tally is not returned either. -/
theorem c6_csv_write_failure {τ δ φ : Type} (tables : List τ) (n : Int)
    (parse : τ → Except String (Option δ)) (countVals : δ → φ)
    (phrase e : String) (t : τ) (df : δ)
    (hn : ¬ (n > (tables.length : Int) ∨ n < 1))
    (hidx : tables[(n - 1).toNat]? = some t)
    (hparse : parse t = Except.ok (some df)) :
    get_table (some tables) n parse countVals phrase (Except.error e)
      = (GetTableResult.err ("Error processing table: " ++ e),
          some (phrase ++ ".csv")) := by
  simp only [get_table]
  rw [if_neg hn]
  simp only [hidx, hparse]

/-- Witness for C6 (amended): the concrete failing-write run of the
counterexample follows from the amended theorem. -/
theorem c6_csv_write_failure_witness :
    get_table (some [()]) 1 (fun _ => Except.ok (some ())) (fun _ => ()) "Pikachu"
        (Except.error "disk full")
      = (GetTableResult.err "Error processing table: disk full", some "Pikachu.csv") :=
  c6_csv_write_failure [()] 1 (fun _ => Except.ok (some ())) (fun _ => ()) "Pikachu"
    "disk full" () () (by decide) (by decide) rfl

/-- C10: when the content region is absent, or the requested index is out
of range, `get_table` returns the error result with no CSV write
attempted (the second component is `none`): the index and content checks
precede the export. -/
theorem c10_no_write_on_error {τ δ φ : Type} (n : Int)
    (parse : τ → Except String (Option δ)) (countVals : δ → φ)
    (phrase : String) (w : Except String Unit) :
    (get_table (none : Option (List τ)) n parse countVals phrase w
        = (GetTableResult.err "Could not find content on the page.", none)) ∧
    (∀ tables : List τ, n < 1 ∨ n > (tables.length : Int) →
      get_table (some tables) n parse countVals phrase w
        = (GetTableResult.err
            ("Table number " ++ toString n ++ " does not exist on the page."), none)) := by
  constructor
  · rfl
  · intro tables h
    simp only [get_table]
    rw [if_pos (by tauto)]

/-- Witness for C10: on an absent region, and on an empty region with
index 1, the error result carries no write. -/
theorem c10_no_write_on_error_witness :
    (get_table (none : Option (List Unit)) 1 (fun _ => Except.ok (some ()))
        (fun _ => ()) "Pikachu" (Except.ok ())
      = (GetTableResult.err "Could not find content on the page.", none)) ∧
    (get_table (some ([] : List Unit)) 1 (fun _ => Except.ok (some ()))
        (fun _ => ()) "Pikachu" (Except.ok ())
      = (GetTableResult.err "Table number 1 does not exist on the page.", none)) :=
  ⟨(c10_no_write_on_error 1 (fun _ => Except.ok (some ())) (fun _ => ()) "Pikachu"
      (Except.ok ())).1,
   ((c10_no_write_on_error 1 (fun _ => Except.ok (some ())) (fun _ => ()) "Pikachu"
       (Except.ok ())).2 [] (Or.inr (by decide))).trans (by decide)⟩

theorem addLinks_inv (maxD d : Nat) (hd : d < maxD) :
    ∀ (links : List String) (v : List String) (q h : List (String × Nat)),
      (∀ p, p ∈ v ↔ p ∈ h.map Prod.fst) →
      (h.map Prod.fst).Nodup →
      (∀ pd ∈ h, pd.2 ≤ maxD) →
      (∀ pd ∈ q, pd ∈ h) →
      (∀ p, p ∈ (addLinks d links v q h).1
          ↔ p ∈ (addLinks d links v q h).2.2.map Prod.fst) ∧
      ((addLinks d links v q h).2.2.map Prod.fst).Nodup ∧
      (∀ pd ∈ (addLinks d links v q h).2.2, pd.2 ≤ maxD) ∧
      (∀ pd ∈ (addLinks d links v q h).2.1, pd ∈ (addLinks d links v q h).2.2) ∧
      (∀ pd ∈ h, pd ∈ (addLinks d links v q h).2.2) := by
  intro links
  induction links with
  | nil =>
    intro v q h h1 h2 h3 h4
    exact ⟨h1, h2, h3, h4, fun pd hpd => hpd⟩
  | cons link rest ih =>
    intro v q h h1 h2 h3 h4
    by_cases hv : link ∈ v
    · simp only [addLinks, if_pos hv]
      exact ih v q h h1 h2 h3 h4
    · simp only [addLinks, if_neg hv]
      have hiff : ∀ p, p ∈ link :: v ↔ p ∈ ((link, d + 1) :: h).map Prod.fst := by
        intro p
        simp only [List.mem_cons, List.map_cons]
        rw [h1 p]
      have hnd : (((link, d + 1) :: h).map Prod.fst).Nodup := by
        rw [List.map_cons]
        exact List.nodup_cons.mpr ⟨fun hm => hv ((h1 link).mpr hm), h2⟩
      have hdep : ∀ pd ∈ (link, d + 1) :: h, pd.2 ≤ maxD := by
        intro pd hpd
        rcases List.mem_cons.mp hpd with heq | hmem
        · subst heq
          omega
        · exact h3 pd hmem
      have hqh : ∀ pd ∈ q ++ [(link, d + 1)], pd ∈ (link, d + 1) :: h := by
        intro pd hpd
        rcases List.mem_append.mp hpd with hmem | hmem
        · exact List.mem_cons.mpr (Or.inr (h4 pd hmem))
        · simp only [List.mem_singleton] at hmem
          subst hmem
          exact List.mem_cons.mpr (Or.inl rfl)
      have ihs := ih (link :: v) (q ++ [(link, d + 1)]) ((link, d + 1) :: h) hiff hnd hdep hqh
      exact ⟨ihs.1, ihs.2.1, ihs.2.2.1, ihs.2.2.2.1,
        fun pd hpd => ihs.2.2.2.2 pd (List.mem_cons.mpr (Or.inr hpd))⟩

theorem crawlStep_inv (world : String → Bool × List String) (maxDepth : Nat)
    (s : CrawlState) (hs : CrawlInv maxDepth s) :
    CrawlInv maxDepth (crawlStep world maxDepth s) := by
  obtain ⟨h1, h2, h3, h4, h5⟩ := hs
  cases hq : s.queue with
  | nil =>
    simp only [crawlStep, hq]
    exact ⟨h1, h2, h3, h4, h5⟩
  | cons pd0 rest =>
    obtain ⟨p, d⟩ := pd0
    simp only [crawlStep, hq]
    have hrest : ∀ pd ∈ rest, pd ∈ s.history := by
      intro pd hpd
      exact h4 pd (hq ▸ List.mem_cons.mpr (Or.inr hpd))
    have hhead : (p, d) ∈ s.history := h4 (p, d) (hq ▸ List.mem_cons.mpr (Or.inl rfl))
    by_cases hc : (world p).1 = true ∧ d < maxDepth
    · rw [if_pos hc]
      have ha := addLinks_inv maxDepth d hc.2 (world p).2 s.visited rest s.history
        h1 h2 h3 hrest
      refine ⟨ha.1, ha.2.1, ha.2.2.1, ha.2.2.2.1, ?_⟩
      intro pd hpd
      rcases List.mem_append.mp hpd with hmem | hmem
      · exact ha.2.2.2.2 pd (h5 pd hmem)
      · simp only [List.mem_singleton] at hmem
        subst hmem
        exact ha.2.2.2.2 _ hhead
    · rw [if_neg hc]
      refine ⟨h1, h2, h3, hrest, ?_⟩
      intro pd hpd
      rcases List.mem_append.mp hpd with hmem | hmem
      · exact h5 pd hmem
      · simp only [List.mem_singleton] at hmem
        subst hmem
        exact hhead

theorem crawlRun_inv (world : String → Bool × List String) (maxDepth : Nat)
    (start : String) (n : Nat) :
    CrawlInv maxDepth (crawlRun world maxDepth start n) := by
  induction n with
  | zero =>
    refine ⟨?_, ?_, ?_, ?_, ?_⟩ <;> simp [crawlRun, crawlInit, CrawlInv]
  | succ n ih =>
    exact crawlStep_inv world maxDepth _ ih

/-- C1: over any link graph, any depth limit and any start phrase, after
any number of crawl iterations each phrase has been enqueued at most once
(the enqueue history has no duplicate phrase), and the visited set holds
exactly the phrases ever enqueued — a phrase is marked visited when
enqueued, and a visited phrase is never enqueued again. -/
theorem c1_visited_once (world : String → Bool × List String) (maxDepth : Nat)
    (start : String) (n : Nat) :
    ((crawlRun world maxDepth start n).history.map Prod.fst).Nodup ∧
    (∀ p, p ∈ (crawlRun world maxDepth start n).visited
        ↔ p ∈ (crawlRun world maxDepth start n).history.map Prod.fst) := by
  have h := crawlRun_inv world maxDepth start n
  exact ⟨h.2.1, h.1⟩

/-- C2: over any link graph, any depth limit and any start phrase, every
`(phrase, depth)` pair that ever enters the queue satisfies
`depth ≤ maxDepth`, and consequently every fetched (dequeued and
processed) pair satisfies the same bound — no phrase with discovery depth
above the limit is ever fetched. -/
theorem c2_depth_bound (world : String → Bool × List String) (maxDepth : Nat)
    (start : String) (n : Nat) :
    (∀ pd ∈ (crawlRun world maxDepth start n).history, pd.2 ≤ maxDepth) ∧
    (∀ pd ∈ (crawlRun world maxDepth start n).processed, pd.2 ≤ maxDepth) := by
  have h := crawlRun_inv world maxDepth start n
  exact ⟨h.2.2.1, fun pd hpd => h.2.2.1 pd (h.2.2.2.2 pd hpd)⟩

/-- Witness for C2: in the sample graph crawled from `A` with depth limit
1, the pair `(B, 1)` is fetched at the second iteration and its depth is
within the bound. -/
theorem c2_depth_bound_witness :
    ("B", 1) ∈ (crawlRun demoWorld 1 "A" 2).processed ∧
    (("B", 1) : String × Nat).2 ≤ 1 :=
  ⟨by decide, (c2_depth_bound demoWorld 1 "A" 2).2 ("B", 1) (by decide)⟩

end WikiScraper
